import Mathlib

/-!
Verification of the text-rendering core of the `wut_rust` repository
(`src/gemini.rs`): the ANSI-aware text wrapper (`wrap_text`), the
ANSI-escape stripper used for width measurement, the Markdown-to-ANSI
line transformer (`convert_markdown_to_ansi`), and the diff renderer
(`display_diff`).

Strings are modelled as `List Char`.  Rust `str::len` is a UTF-8 byte
count, modelled by `utf8Len`.  `usize` arithmetic is modelled with
release-mode (wrapping) semantics via `usizeSub`; debug builds would
panic on the same underflow.  The external `syntect` highlighter and
the external `similar` diff algorithm are not part of the repository:
the highlighter is a parameter (`HL`), and the diff is modelled from
the spec (see `diffLines`).
-/

set_option maxRecDepth 4096

/-- Convert a string literal to the `List Char` representation used throughout. -/
def strL (s : String) : List Char := s.data

/-- The Unicode `White_Space` property, used by Rust's `char::is_whitespace`
(hence `str::split_whitespace` / `trim`) and by the regex class `\s`. -/
def rustIsWS (c : Char) : Bool :=
  let n := c.toNat
  n = 0x20 || (0x9 ≤ n && n ≤ 0xD) || n = 0x85 || n = 0xA0 || n = 0x1680 ||
  (0x2000 ≤ n && n ≤ 0x200A) || n = 0x2028 || n = 0x2029 || n = 0x202F ||
  n = 0x205F || n = 0x3000

/-- ASCII digit test (the regex classes used by the source are matched on
ASCII inputs; Unicode digits/`\d` differences do not affect the claims). -/
def isAsciiDigit (c : Char) : Bool := '0' ≤ c && c ≤ '9'

/-- ASCII letter test, the final character class `[a-zA-Z]` of the ANSI regex. -/
def isAsciiAlpha (c : Char) : Bool := ('a' ≤ c && c ≤ 'z') || ('A' ≤ c && c ≤ 'Z')

/-- UTF-8 byte size of one scalar value (Rust `char::len_utf8`). -/
def csize (c : Char) : Nat :=
  if c.toNat < 0x80 then 1 else if c.toNat < 0x800 then 2
  else if c.toNat < 0x10000 then 3 else 4

/-- UTF-8 byte length of a string (Rust `str::len`). -/
def utf8Len (l : List Char) : Nat := (l.map csize).sum

/-- Subtraction on `usize` with release-profile wrapping semantics:
`a.wrapping_sub b` for `a, b < 2^64`.  Debug builds panic instead. -/
def usizeSub (a b : Nat) : Nat := ((2 ^ 64 + a) - b) % 2 ^ 64

/-- Scanner state for the regex `\x1b\[[0-9;]*[a-zA-Z]` used by `wrap_text`:
either outside any candidate match, after a lone `ESC`, or inside
`ESC [ [0-9;]*` with the accumulated parameter characters (reversed). -/
inductive AnsiSt : Type
  | norm : AnsiSt
  | esc : AnsiSt
  | seq : List Char → AnsiSt

/-- Is `c` in the regex class `[0-9;]`? -/
def isDigitSemi (c : Char) : Bool := isAsciiDigit c || c = ';'

/-- One left-to-right pass of `Regex::replace_all` for the pattern
`\x1b\[[0-9;]*[a-zA-Z]` with an empty replacement.  A failed partial
match is emitted verbatim; no new match can start inside a failed
buffer because a match must begin with `ESC` and the buffer contains
`ESC` only at its head. -/
def stripAnsiAux : AnsiSt → List Char → List Char
  | .norm, [] => []
  | .esc, [] => ['\x1b']
  | .seq ds, [] => '\x1b' :: '[' :: ds.reverse
  | .norm, c :: rest =>
    if c = '\x1b' then stripAnsiAux .esc rest else c :: stripAnsiAux .norm rest
  | .esc, c :: rest =>
    if c = '[' then stripAnsiAux (.seq []) rest
    else if c = '\x1b' then '\x1b' :: stripAnsiAux .esc rest
    else '\x1b' :: c :: stripAnsiAux .norm rest
  | .seq ds, c :: rest =>
    if isDigitSemi c then stripAnsiAux (.seq (c :: ds)) rest
    else if isAsciiAlpha c then stripAnsiAux .norm rest
    else if c = '\x1b' then ('\x1b' :: '[' :: ds.reverse) ++ stripAnsiAux .esc rest
    else ('\x1b' :: '[' :: ds.reverse) ++ (c :: stripAnsiAux .norm rest)

/-- Model of `ansi_regex.replace_all(s, "")`: remove every complete ANSI CSI
escape sequence, keeping unterminated ones verbatim. -/
def stripAnsi (l : List Char) : List Char := stripAnsiAux .norm l

/-- Visible width in terminal columns: character count after stripping
ANSI escape sequences (spec glossary "visible length"). -/
def visibleLength (l : List Char) : Nat := (stripAnsi l).length

/-- The byte length the source actually compares against the width budget:
`ansi_regex.replace_all(line, "").len()`. -/
def strippedBytes (l : List Char) : Nat := utf8Len (stripAnsi l)

/-- Accumulator pass of Rust `str::split_whitespace`: split on runs of
Unicode whitespace, yielding no empty words.  `acc` holds the current
word reversed. -/
def wsSplitAux : List Char → List Char → List (List Char)
  | [], acc => if acc.isEmpty then [] else [acc.reverse]
  | c :: rest, acc =>
    if rustIsWS c then
      if acc.isEmpty then wsSplitAux rest [] else acc.reverse :: wsSplitAux rest []
    else wsSplitAux rest (c :: acc)

/-- Rust `str::split_whitespace`, collected into a list of words. -/
def wsSplit (l : List Char) : List (List Char) := wsSplitAux l []

/-- One iteration of the word loop in `wrap_text` (src/gemini.rs:479-492):
state is `(wrapped_lines, current_line)`. -/
def wrapStep (eff : Nat) (st : List (List Char) × List Char) (w : List Char) :
    List (List Char) × List Char :=
  if st.2.isEmpty then (st.1, st.2 ++ w)
  else if strippedBytes st.2 + 1 + strippedBytes w ≤ eff then (st.1, st.2 ++ ' ' :: w)
  else (st.1 ++ [st.2], w)

/-- The word loop of `wrap_text` followed by the final
`wrapped_lines.push(current_line)` (src/gemini.rs:493). -/
def wrapCore (eff : Nat) (ws : List (List Char)) : List (List Char) :=
  let p := ws.foldl (wrapStep eff) ([], [])
  p.1 ++ [p.2]

/-- The continuation-line prefix `format!("{:indent$}", " ")`: the string
`" "` left-padded to a *minimum* width of `indent`, i.e. `max indent 1`
spaces — one space even when `indent = 0`. -/
def padSpaces (indent : Nat) : List Char := List.replicate (max indent 1) ' '

/-- The separator inserted before every line after the first in
`wrap_text`'s output-assembly loop (src/gemini.rs:495-503, including the
final `result.pop()` of the trailing newline). -/
def lineSep (indent : Nat) : List Char := '\n' :: padSpaces indent

/-- Output assembly of `wrap_text`: first line verbatim, every further
line prefixed with newline plus the indent padding. -/
def renderLines (indent : Nat) : List (List Char) → List Char
  | [] => []
  | l :: ls => l ++ (ls.map fun x => lineSep indent ++ x).flatten

/-- Model of `wrap_text(text, max_width, current_indent)` from src/gemini.rs:472-505.
`effective_width = max_width - current_indent` is an unchecked `usize`
subtraction, modelled with wrapping semantics. -/
def wrapText (text : List Char) (maxWidth indent : Nat) : List Char :=
  renderLines indent (wrapCore (usizeSub maxWidth indent) (wsSplit text))

/-- Reversed-accumulator helper for `str::lines`: a `\r\n` terminator
drops the `\r` (the accumulator is reversed, so it sits at the head). -/
def dropCRrev (acc : List Char) : List Char :=
  match acc with
  | [] => []
  | c :: t => if c = '\r' then t else c :: t

/-- Accumulator pass of Rust `str::lines`: split at `\n` (stripping a
preceding `\r`), with no trailing empty line and no line for `""`. -/
def rustLinesAux : List Char → List Char → List (List Char)
  | [], acc => if acc.isEmpty then [] else [acc.reverse]
  | c :: rest, acc =>
    if c = '\n' then (dropCRrev acc).reverse :: rustLinesAux rest []
    else rustLinesAux rest (c :: acc)

/-- Rust `str::lines`, collected into a list. -/
def rustLines (l : List Char) : List (List Char) := rustLinesAux l []

/-- Rust `str::trim_start`. -/
def rustTrimStart (l : List Char) : List Char := l.dropWhile rustIsWS

/-- Rust `str::trim_end`. -/
def rustTrimEnd (l : List Char) : List Char := (l.reverse.dropWhile rustIsWS).reverse

/-- Rust `str::trim`. -/
def rustTrim (l : List Char) : List Char := rustTrimEnd (rustTrimStart l)

/-- ANSI escape constants from `convert_markdown_to_ansi` / `display_diff`. -/
def ansiReset : List Char := strL "\x1b[0m"

/-- Bold-on escape `\x1b[1m`. -/
def ansiBold : List Char := strL "\x1b[1m"

/-- Italic-on escape `\x1b[3m`. -/
def ansiItalic : List Char := strL "\x1b[3m"

/-- Cyan escape `\x1b[36m` used for inline code. -/
def ansiCyan : List Char := strL "\x1b[36m"

/-- Red escape `\x1b[31m` used for deletions. -/
def ansiRed : List Char := strL "\x1b[31m"

/-- Blue escape `\x1b[34m` used for insertions. -/
def ansiBlue : List Char := strL "\x1b[34m"

/-- Yellow escape `\x1b[33m` used for the diff summary line. -/
def ansiYellow : List Char := strL "\x1b[33m"

/-- Rust `str::replace("**", "")` (src/gemini.rs:678): leftmost,
non-overlapping removal of every `**`. -/
def removeStarStar : List Char → List Char
  | '*' :: '*' :: rest => removeStarStar rest
  | c :: rest => c :: removeStarStar rest
  | [] => []

/-- Rust `str::replace("* ", "")` (src/gemini.rs:679). -/
def removeStarSpace : List Char → List Char
  | '*' :: ' ' :: rest => removeStarSpace rest
  | c :: rest => c :: removeStarSpace rest
  | [] => []

/-- Rust `str::replace(" *", "")` (src/gemini.rs:680). -/
def removeSpaceStar : List Char → List Char
  | ' ' :: '*' :: rest => removeSpaceStar rest
  | c :: rest => c :: removeSpaceStar rest
  | [] => []

/-- Split at the first occurrence of the doubled delimiter `cc`:
returns (characters before it, characters after it).  This is the lazy
group `(.*?)` of the bold regex `\*\*(.*?)\*\*|__(.*?)__`. -/
def splitFirstPair (c : Char) : List Char → Option (List Char × List Char)
  | [] => none
  | a :: rest =>
    if a = c ∧ rest.head? = some c then some ([], rest.tail)
    else
      match splitFirstPair c rest with
      | some (g, af) => some (a :: g, af)
      | none => none

/-- Fuelled scan of `bold_regex.replace_all` with replacement
`BOLD $1$2 RESET`: at each position try `\*\*(.*?)\*\*` first, then
`__(.*?)__` (leftmost-first alternation).  The inputs are single lines,
so the `.`-excludes-newline restriction of the lazy group is vacuous.
Fuel `l.length` suffices: every step consumes at least one character. -/
def emphScanF : Nat → List Char → List Char
  | 0, l => l
  | _ + 1, [] => []
  | f + 1, c :: rest =>
    if c = '*' ∧ rest.head? = some '*' then
      match splitFirstPair '*' rest.tail with
      | some (g, af) => ansiBold ++ g ++ ansiReset ++ emphScanF f af
      | none => c :: emphScanF f rest
    else if c = '_' ∧ rest.head? = some '_' then
      match splitFirstPair '_' rest.tail with
      | some (g, af) => ansiBold ++ g ++ ansiReset ++ emphScanF f af
      | none => c :: emphScanF f rest
    else c :: emphScanF f rest

/-- Model of `bold_regex.replace_all` with `BOLD $1$2 RESET` (src/gemini.rs:682-685). -/
def boldSub (l : List Char) : List Char := emphScanF l.length l

/-- Match of one italic alternative `d([^d\s][^d]*[^d\s])d` at the
position right after an opening delimiter `d`: the group is the maximal
run of non-`d` characters (at least 2 of them, non-whitespace at both
ends) and the closing `d` must follow the run immediately. -/
def italMatch (d : Char) (rest : List Char) : Option (List Char × List Char) :=
  let run := rest.takeWhile (fun x => x ≠ d)
  if 2 ≤ run.length ∧ run.length < rest.length ∧
      rustIsWS (run.headD ' ') = false ∧ rustIsWS (run.getLastD ' ') = false
  then some (run, rest.drop (run.length + 1))
  else none

/-- Fuelled scan of `italics_regex.replace_all` with replacement
`ITALIC $1$2 RESET` for `\*([^*\s][^*]*[^*\s])\*|_([^_\s][^_]*[^_\s])_`. -/
def italScanF : Nat → List Char → List Char
  | 0, l => l
  | _ + 1, [] => []
  | f + 1, c :: rest =>
    if c = '*' then
      match italMatch '*' rest with
      | some (g, af) => ansiItalic ++ g ++ ansiReset ++ italScanF f af
      | none => c :: italScanF f rest
    else if c = '_' then
      match italMatch '_' rest with
      | some (g, af) => ansiItalic ++ g ++ ansiReset ++ italScanF f af
      | none => c :: italScanF f rest
    else c :: italScanF f rest

/-- Model of `italics_regex.replace_all` with `ITALIC $1$2 RESET` (src/gemini.rs:687-691). -/
def italSub (l : List Char) : List Char := italScanF l.length l

/-- Match of the inline-code pattern `` `([^`]+)` `` right after an
opening backtick. -/
def monoMatch (rest : List Char) : Option (List Char × List Char) :=
  let run := rest.takeWhile (fun x => x ≠ '`')
  if 1 ≤ run.length ∧ run.length < rest.length
  then some (run, rest.drop (run.length + 1))
  else none

/-- Fuelled scan of `monospace_regex.replace_all`. -/
def monoScanF : Nat → List Char → List Char
  | 0, l => l
  | _ + 1, [] => []
  | f + 1, c :: rest =>
    if c = '`' then
      match monoMatch rest with
      | some (g, af) => ansiCyan ++ g ++ ansiReset ++ monoScanF f af
      | none => c :: monoScanF f rest
    else c :: monoScanF f rest

/-- Model of `monospace_regex.replace_all` with `CYAN $1 RESET` (src/gemini.rs:693-696). -/
def monoSub (l : List Char) : List Char := monoScanF l.length l

/-- Model of `heading_regex.replace_all` for `^#\s*(.*)$` with replacement
`\n{BOLD}$1{RESET}\n`: anchored at both ends, so it fires at most once,
exactly when the line starts with `#` (src/gemini.rs:698-701). -/
def headingSub (l : List Char) : List Char :=
  match l with
  | '#' :: rest => '\n' :: ansiBold ++ rest.dropWhile rustIsWS ++ ansiReset ++ ['\n']
  | _ => l

/-- The fixed inline-substitution chain applied to every normal line
(src/gemini.rs:677-701): the three literal `replace` calls, then bold,
italics, inline code, heading. -/
def inlineSubs (l : List Char) : List Char :=
  headingSub (monoSub (italSub (boldSub
    (removeSpaceStar (removeStarSpace (removeStarStar l))))))

/-- ASCII lower-casing, the case folding relevant to the `(?i)` literal
patterns used by the source (all-ASCII patterns). -/
def lowerAscii (c : Char) : Char :=
  if 'A' ≤ c ∧ c ≤ 'Z' then Char.ofNat (c.toNat + 32) else c

/-- Case-insensitive prefix test. -/
def isPrefixOfCI : List Char → List Char → Bool
  | [], _ => true
  | _ :: _, [] => false
  | p :: ps, c :: cs => lowerAscii p == lowerAscii c && isPrefixOfCI ps cs

/-- Model of `Regex::new("(?i)PAT").is_match(line)`: case-insensitive substring
search. -/
def containsCI (pat : List Char) : List Char → Bool
  | [] => isPrefixOfCI pat []
  | l@(_ :: rest) => isPrefixOfCI pat l || containsCI pat rest

/-- The literal searched by `next_steps_heading_regex` (src/gemini.rs:597). -/
def nextStepsPat : List Char := strL "next steps:"

/-- Capture of `numbered_list_start_regex` `^(\d+\.\s+)(.*)$`
(src/gemini.rs:596): maximal digit run, a dot, a nonempty maximal
whitespace run; group 1 is that prefix, group 2 the rest of the line. -/
def numberedSplit (l : List Char) : Option (List Char × List Char) :=
  let ds := l.takeWhile isAsciiDigit
  if ds.isEmpty then none
  else
    match l.drop ds.length with
    | '.' :: rest2 =>
      let ws := rest2.takeWhile rustIsWS
      if ws.isEmpty then none
      else some (ds ++ '.' :: ws, rest2.drop ws.length)
    | _ => none

/-- The continuation padding `format!("{:<width$}{}", " ", line)`:
`" "` left-aligned in a *minimum* field of `width`, i.e. `max width 1`
spaces prepended. -/
def padFmt (w : Nat) : List Char := List.replicate (max w 1) ' '

/-- Result of the structural phase of one normal (non-code) line:
updated list state, the wrap indent for this line, and the line after
structural rewriting (src/gemini.rs:648-675). -/
structure MdLineOut where
  listIndent : Nat
  inNextSteps : Bool
  wrapIndent : Nat
  line : List Char
  deriving DecidableEq, Repr

/-- The structural `if`/`else if` chain of `convert_markdown_to_ansi`
for one normal line: Next-Steps heading, numbered-list start (indent =
byte length of the captured prefix, +4 inside Next Steps), non-empty
continuation (left-padded), otherwise reset of the list state. -/
def mdStruct (li : Nat) (ns : Bool) (line : List Char) : MdLineOut :=
  if containsCI nextStepsPat line then ⟨0, true, 0, line⟩
  else
    match numberedSplit line with
    | some (np, tp) =>
      let li' := utf8Len np + (if ns then 4 else 0)
      ⟨li', ns, li', np ++ tp⟩
    | none =>
      if 0 < li ∧ line.any (fun c => !(rustIsWS c)) then ⟨li, ns, li, padFmt li ++ line⟩
      else ⟨0, false, 0, line⟩

/-- The external `syntect` highlighter at the repository's interface:
a per-language initial lexer state, a stateful per-line style-range
producer (`HighlightLines::highlight_line` with `unwrap_or_default`),
and the range renderer (`as_24_bit_terminal_escaped`). -/
structure HL (σ ρ : Type) where
  langInit : List Char → σ
  lineRanges : σ → List Char → σ × List ρ
  escRanges : List ρ → List Char

/-- The per-line map of the code-block branch (src/gemini.rs:617-629):
one output string per line of the joined block content; a line whose
style-range list is empty is emitted unmodified. -/
def hlOuts {σ ρ : Type} (H : HL σ ρ) : σ → List (List Char) → List (List Char)
  | _, [] => []
  | s, l :: ls =>
    let p := H.lineRanges s l
    (if p.2.isEmpty then l else H.escRanges p.2) :: hlOuts H p.1 ls

/-- The lexer state in force before each line of a block. -/
def hlStates {σ ρ : Type} (H : HL σ ρ) : σ → List (List Char) → List σ
  | _, [] => []
  | s, l :: ls => s :: hlStates H (H.lineRanges s l).1 ls

/-- The single string pushed for one non-empty code block: highlighted
lines joined with newlines (src/gemini.rs:617-631). -/
def renderCodeBlockStr {σ ρ : Type} (H : HL σ ρ) (lang code : List Char) : List Char :=
  List.intercalate ['\n'] (hlOuts H (H.langInit lang) (rustLines code))

/-- Rust `str::trim_start_matches` for a leading fence, stripped repeatedly. -/
def dropTicks : List Char → List Char
  | '`' :: '`' :: '`' :: rest => dropTicks rest
  | l => l

/-- The line loop of `convert_markdown_to_ansi` (src/gemini.rs:605-707):
state is (list indent, Next-Steps flag, in-code-block flag, pending
language tag, buffered block content).  Returns `result_lines`. -/
def convertLoop {σ ρ : Type} (H : HL σ ρ) :
    Nat → Bool → Bool → List Char → List (List Char) → List (List Char) → List (List Char)
  | _, _, _, _, _, [] => []
  | li, ns, inCode, lang, content, line :: rest =>
    if (strL "```").isPrefixOf line then
      if inCode then
        let code := List.intercalate ['\n'] content
        if (rustTrim code).isEmpty then convertLoop H li ns false lang [] rest
        else renderCodeBlockStr H lang code :: convertLoop H li ns false lang [] rest
      else
        let lg := rustTrim (dropTicks line)
        let lg' := if lg.isEmpty then strL "text" else lg
        convertLoop H li ns true lg' [] rest
    else if inCode then convertLoop H li ns true lang (content ++ [line]) rest
    else
      let o := mdStruct li ns line
      wrapText (inlineSubs o.line) 100 o.wrapIndent ::
        convertLoop H o.listIndent o.inNextSteps false lang content rest

/-- Model of `convert_markdown_to_ansi` (src/gemini.rs:588-710), parameterised by
the external highlighter. -/
def convertMarkdownToAnsi {σ ρ : Type} (H : HL σ ρ) (text : List Char) : List Char :=
  List.intercalate ['\n'] (convertLoop H 0 false false [] [] (rustLines text))

/-- A concrete do-nothing highlighter (always produces no style ranges),
used to evaluate the pipeline on inputs whose behaviour does not depend
on the highlighter. -/
def trivialHL : HL Unit Unit where
  langInit := fun _ => ()
  lineRanges := fun s _ => (s, [])
  escRanges := fun _ => []

/-- Modelled from the spec: the tags of line-change records produced by
the external `similar` crate's diff ("output is a sequence of tagged
line records: Equal, Insert, Delete"). -/
inductive DTag : Type
  | equal : DTag
  | ins : DTag
  | del : DTag
  deriving DecidableEq, Repr

/-- One tagged line-change record. -/
abbrev DChange := DTag × List Char

/-- Modelled from the spec: `TextDiff::from_lines` line splitting — lines
keep their terminating newline, and the final unterminated line (if any)
is kept; the empty text has no lines. -/
def linesKeepAux : List Char → List Char → List (List Char)
  | [], acc => if acc.isEmpty then [] else [acc.reverse]
  | c :: rest, acc =>
    if c = '\n' then (c :: acc).reverse :: linesKeepAux rest []
    else linesKeepAux rest (c :: acc)

/-- Modelled from the spec: split a text into diffable lines. -/
def linesKeep (l : List Char) : List (List Char) := linesKeepAux l []

/-- Fuelled longest-common-subsequence length; fuel
`xs.length + ys.length` always suffices. -/
def lcsLenF : Nat → List (List Char) → List (List Char) → Nat
  | 0, _, _ => 0
  | _ + 1, [], _ => 0
  | _ + 1, _ :: _, [] => 0
  | f + 1, x :: xs, y :: ys =>
    if x = y then lcsLenF f xs ys + 1
    else max (lcsLenF f xs (y :: ys)) (lcsLenF f (x :: xs) ys)

/-- Longest-common-subsequence length of two line lists. -/
def lcsLen (xs ys : List (List Char)) : Nat := lcsLenF (xs.length + ys.length) xs ys

/-- Modelled from the spec: a standard LCS-based line diff ("Myers or
equivalent") emitting Equal/Insert/Delete records in order.  Fuel
`xs.length + ys.length` always suffices. -/
def diffLinesF : Nat → List (List Char) → List (List Char) → List DChange
  | 0, _, _ => []
  | _ + 1, [], [] => []
  | f + 1, [], y :: ys => (.ins, y) :: diffLinesF f [] ys
  | f + 1, x :: xs, [] => (.del, x) :: diffLinesF f xs []
  | f + 1, x :: xs, y :: ys =>
    if x = y then (.equal, x) :: diffLinesF f xs ys
    else if lcsLen (x :: xs) ys ≤ lcsLen xs (y :: ys)
    then (.del, x) :: diffLinesF f xs (y :: ys)
    else (.ins, y) :: diffLinesF f (x :: xs) ys

/-- Modelled from the spec: the full line diff of two line lists. -/
def diffLines (xs ys : List (List Char)) : List DChange :=
  diffLinesF (xs.length + ys.length) xs ys

/-- Number of records with a given tag. -/
def countTag (t : DTag) : List DChange → Nat
  | [] => 0
  | c :: ch => (if c.1 = t then 1 else 0) + countTag t ch

/-- The `total_additions` counting loop of `display_diff`
(src/gemini.rs:102-113). -/
def totAdditions (ch : List DChange) : Nat :=
  ch.foldl (fun n c => if c.1 = DTag.ins then n + 1 else n) 0

/-- The `total_deletions` counting loop of `display_diff`. -/
def totDeletions (ch : List DChange) : Nat :=
  ch.foldl (fun n c => if c.1 = DTag.del then n + 1 else n) 0

/-- Is a record a changed (non-Equal) record? -/
def isChangeRec (c : DChange) : Bool := !(c.1 == DTag.equal)

/-- Model of the byte slice `&line[..57]`: `some` of the prefix when
byte `n` is a character boundary within the string, `none` when the
slice panics (byte `n` inside a multibyte character, or past the end). -/
def takeBytesExact : Nat → List Char → Option (List Char)
  | 0, _ => some []
  | _ + 1, [] => none
  | n + 1, c :: rest =>
    if csize c ≤ n + 1 then (takeBytesExact (n + 1 - csize c) rest).map (c :: ·)
    else none

/-- The preview truncation of `display_diff` (src/gemini.rs:140-144):
lines longer than 60 bytes become their first 57 bytes plus `...`;
`none` models the panic of `&line[..57]` when byte 57 falls inside a
multibyte character. -/
def truncate60 (l : List Char) : Option (List Char) :=
  if 60 < utf8Len l then (takeBytesExact 57 l).map (· ++ strL "...") else some l

/-- One printed preview line for a changed record: colored `+`/`-`
marker prefix, then the colored, trimmed, truncated line text
(src/gemini.rs:133-162); `none` when the truncation panics. -/
def renderChangeLine (c : DChange) : Option (List Char) :=
  match c.1 with
  | .del => (truncate60 (rustTrimEnd c.2)).map fun t =>
      strL "  " ++ ansiRed ++ strL "-" ++ ansiReset ++ strL " " ++ ansiRed ++ t ++ ansiReset
  | .ins => (truncate60 (rustTrimEnd c.2)).map fun t =>
      strL "  " ++ ansiBlue ++ strL "+" ++ ansiReset ++ strL " " ++ ansiBlue ++ t ++ ansiReset
  | .equal => some []

/-- The preview loop of `display_diff` (src/gemini.rs:120-166): walk the
change records in order with a budget of 5 shown lines; Equal records
print nothing; the loop stops once the budget is exhausted.  `none`
models a truncation panic on one of the shown lines, which aborts
`display_diff` before the preview (and everything after it) completes. -/
def previewAux : Nat → List DChange → Option (List (List Char))
  | _, [] => some []
  | budget, c :: rest =>
    if budget = 0 then some []
    else if c.1 == DTag.equal then previewAux budget rest
    else
      match renderChangeLine c with
      | none => none
      | some line => (previewAux (budget - 1) rest).map (line :: ·)

/-- The preview lines printed by `display_diff`, or `none` on a panic. -/
def previewOf (ch : List DChange) : Option (List (List Char)) := previewAux 5 ch

/-- Rendering of a whole record list: the rendered lines in order, or
`none` as soon as one rendering panics. -/
def renderAll : List DChange → Option (List (List Char))
  | [] => some []
  | c :: rest =>
    match renderChangeLine c with
    | none => none
    | some line => (renderAll rest).map (line :: ·)

/-- Sum `total_changes = total_additions + total_deletions` (src/gemini.rs:168). -/
def changeTotal (ch : List DChange) : Nat := totAdditions ch + totDeletions ch

/-- The final value of `shown_lines` after the preview loop. -/
def shownCount (ch : List DChange) : Nat := min 5 (ch.countP isChangeRec)

/-- The trailing summary of `display_diff` (src/gemini.rs:169-176):
printed only when more than 5 records changed, reporting
`total_changes - shown_lines` hidden changes. -/
def summaryOf (ch : List DChange) : Option Nat :=
  if 5 < changeTotal ch then some (changeTotal ch - shownCount ch) else none

/-- A word as produced by `split_whitespace`: nonempty and whitespace-free. -/
def cleanWord (w : List Char) : Prop := w ≠ [] ∧ ∀ c ∈ w, rustIsWS c = false

/-- A character that can appear in none of the states of an ANSI escape
sequence: word separators like `' '` and `'\n'` qualify. -/
def ansiNeutralChar (c : Char) : Prop :=
  c ≠ '\x1b' ∧ c ≠ '[' ∧ isDigitSemi c = false ∧ isAsciiAlpha c = false

/-- Invariant of the `wrap_text` word loop: every accumulated line either
fits the effective width (in stripped bytes) or is a single word, and
its characters are spaces or non-whitespace. -/
def wrapInv (eff : Nat) (st : List (List Char) × List Char) : Prop :=
  ∀ l ∈ st.1 ++ [st.2],
    (strippedBytes l ≤ eff ∨ (wsSplit l).length ≤ 1) ∧
    (∀ c ∈ l, c = ' ' ∨ rustIsWS c = false)

/-- C1: the program defines no `InvalidWrapConfiguration` error anywhere;
`wrap_text` with `indent = 10 >= max_width = 5` proceeds straight through
the underflowed width budget (`5 - 10` wraps to `2^64 - 5` in release
builds, panics in debug builds) and returns the input joined on one line. -/
theorem c1_wrap_underflow_eval :
    wrapText (strL "hello world") 5 10 = strL "hello world" := by decide

/-- C2: the pre-substitution `replace("**", "")` (src/gemini.rs:678) runs
before the bold regex, so the input line `**bold**` is rewritten to plain
`bold`; the transformed output contains no bold-on ANSI code at all,
contradicting the claim that `**x**` becomes bold-on + x + reset. -/
theorem c2_bold_stripped_eval :
    convertMarkdownToAnsi trivialHL (strL "**bold**") = strL "bold" ∧
    ¬ List.IsInfix (strL "\x1b[1m") (convertMarkdownToAnsi trivialHL (strL "**bold**")) := by
  decide

/-- C3: on the spec's own numbered-list example, the continuation line is
left-padded by the structural phase but `wrap_text` then splits the line
on whitespace and emits the first wrapped line with no prefix, so the
output line `still part of item 1` begins with no spaces (the whole
transform is the identity on this input). -/
theorem c3_indent_lost_eval :
    convertMarkdownToAnsi trivialHL
        (strL "1. first item\nstill part of item 1\n2. second item")
      = strL "1. first item\nstill part of item 1\n2. second item" ∧
    (rustLines (convertMarkdownToAnsi trivialHL
        (strL "1. first item\nstill part of item 1\n2. second item")))[1]?
      = some (strL "still part of item 1") := by decide

/-- C9: counterexample — a fenced block whose single source line is the
whitespace-only line `" "` is skipped entirely by the
`!code.trim().is_empty()` guard (src/gemini.rs:612), producing zero
rendered lines instead of the claimed one line per source line. -/
theorem c9_block_cex :
    convertMarkdownToAnsi trivialHL (strL "```py\n \n```") = [] ∧
    (rustLines (strL " ")).length = 1 := by decide

/-- C10: counterexample — an empty line seen while a numbered-list indent
is active (here indent 3 inside Next Steps) falls into the final `else`
branch (src/gemini.rs:671-675), which resets the indent to 0 and the
Next-Steps flag to false, contradicting the claim that an empty line
leaves them unchanged. -/
theorem c10_reset_cex :
    mdStruct 3 true [] = ⟨0, false, 0, []⟩ ∧
    (mdStruct 3 true []).listIndent ≠ 3 ∧ (mdStruct 3 true []).inNextSteps ≠ true := by
  decide

@[simp] theorem utf8Len_nil : utf8Len [] = 0 := rfl

@[simp] theorem utf8Len_cons (c : Char) (l : List Char) :
    utf8Len (c :: l) = csize c + utf8Len l := by simp [utf8Len]

@[simp] theorem utf8Len_append (a b : List Char) :
    utf8Len (a ++ b) = utf8Len a + utf8Len b := by simp [utf8Len]

@[simp] theorem countTag_nil (t : DTag) : countTag t [] = 0 := rfl

@[simp] theorem countTag_cons (t : DTag) (c : DChange) (ch : List DChange) :
    countTag t (c :: ch) = (if c.1 = t then 1 else 0) + countTag t ch := rfl

theorem diffLinesF_counts (f : Nat) : ∀ (xs ys : List (List Char)),
    xs.length + ys.length ≤ f →
    countTag .equal (diffLinesF f xs ys) + countTag .del (diffLinesF f xs ys) = xs.length ∧
    countTag .equal (diffLinesF f xs ys) + countTag .ins (diffLinesF f xs ys) = ys.length := by
  induction f with
  | zero =>
    intro xs ys h
    have hx : xs = [] := List.length_eq_zero.mp (by omega)
    have hy : ys = [] := List.length_eq_zero.mp (by omega)
    subst hx; subst hy
    simp [diffLinesF]
  | succ f ih =>
    intro xs ys h
    match xs, ys with
    | [], [] => simp [diffLinesF]
    | [], y :: ys =>
      obtain ⟨h1, h2⟩ := ih [] ys (by simp at h ⊢; omega)
      simp only [diffLinesF, countTag_cons, List.length_cons, List.length_nil] at *
      constructor <;> simp <;> omega
    | x :: xs, [] =>
      obtain ⟨h1, h2⟩ := ih xs [] (by simp at h ⊢; omega)
      simp only [diffLinesF, countTag_cons, List.length_cons, List.length_nil] at *
      constructor <;> simp <;> omega
    | x :: xs, y :: ys =>
      by_cases hxy : x = y
      · obtain ⟨h1, h2⟩ := ih xs ys (by simp at h ⊢; omega)
        simp only [diffLinesF, if_pos hxy, countTag_cons, List.length_cons]
        constructor <;> simp <;> omega
      · by_cases hc : lcsLen (x :: xs) ys ≤ lcsLen xs (y :: ys)
        · obtain ⟨h1, h2⟩ := ih xs (y :: ys) (by simp at h ⊢; omega)
          simp only [diffLinesF, if_neg hxy, if_pos hc, countTag_cons, List.length_cons] at *
          constructor <;> simp <;> omega
        · obtain ⟨h1, h2⟩ := ih (x :: xs) ys (by simp at h ⊢; omega)
          simp only [diffLinesF, if_neg hxy, if_neg hc, countTag_cons, List.length_cons] at *
          constructor <;> simp <;> omega

theorem foldl_count_ins (ch : List DChange) : ∀ n : Nat,
    ch.foldl (fun n c => if c.1 = DTag.ins then n + 1 else n) n
      = n + countTag .ins ch := by
  induction ch with
  | nil => intro n; simp
  | cons c rest ih =>
    intro n
    rw [List.foldl_cons, ih]
    by_cases hc : c.1 = DTag.ins <;> simp [hc] <;> omega

theorem foldl_count_del (ch : List DChange) : ∀ n : Nat,
    ch.foldl (fun n c => if c.1 = DTag.del then n + 1 else n) n
      = n + countTag .del ch := by
  induction ch with
  | nil => intro n; simp
  | cons c rest ih =>
    intro n
    rw [List.foldl_cons, ih]
    by_cases hc : c.1 = DTag.del <;> simp [hc] <;> omega

theorem totAdditions_eq (ch : List DChange) : totAdditions ch = countTag .ins ch := by
  unfold totAdditions
  rw [foldl_count_ins]
  omega

theorem totDeletions_eq (ch : List DChange) : totDeletions ch = countTag .del ch := by
  unfold totDeletions
  rw [foldl_count_del]
  omega

/-- C7: diff reconciliation — on the spec-modelled LCS diff of any two
texts, Equal+Delete records count the original's lines, Equal+Insert
records count the proposed text's lines, and the totals reported by
`display_diff`'s counting loop equal the numbers of Insert and Delete
records. -/
theorem c7_diff_reconciliation (orig prop : List Char) :
    countTag .equal (diffLines (linesKeep orig) (linesKeep prop)) +
        countTag .del (diffLines (linesKeep orig) (linesKeep prop))
      = (linesKeep orig).length ∧
    countTag .equal (diffLines (linesKeep orig) (linesKeep prop)) +
        countTag .ins (diffLines (linesKeep orig) (linesKeep prop))
      = (linesKeep prop).length ∧
    totAdditions (diffLines (linesKeep orig) (linesKeep prop))
      = countTag .ins (diffLines (linesKeep orig) (linesKeep prop)) ∧
    totDeletions (diffLines (linesKeep orig) (linesKeep prop))
      = countTag .del (diffLines (linesKeep orig) (linesKeep prop)) := by
  obtain ⟨h1, h2⟩ := diffLinesF_counts
    ((linesKeep orig).length + (linesKeep prop).length)
    (linesKeep orig) (linesKeep prop) (Nat.le_refl _)
  exact ⟨h1, h2, totAdditions_eq _, totDeletions_eq _⟩

theorem previewAux_render_take (ch : List DChange) : ∀ n : Nat,
    previewAux n ch = renderAll ((ch.filter isChangeRec).take n) := by
  induction ch with
  | nil => intro n; simp [previewAux, renderAll]
  | cons c rest ih =>
    intro n
    match n with
    | 0 => simp [previewAux, renderAll]
    | n + 1 =>
      by_cases hc : c.1 = DTag.equal
      · have hb : isChangeRec c = false := by simp [isChangeRec, hc]
        simp [previewAux, hc, hb, ih]
      · have hb : isChangeRec c = true := by simp [isChangeRec, hc]
        cases hr : renderChangeLine c with
        | none => simp [previewAux, hc, hb, hr, renderAll]
        | some line => simp [previewAux, hc, hb, hr, renderAll, ih n]

theorem countP_change_eq (ch : List DChange) :
    ch.countP isChangeRec = countTag .ins ch + countTag .del ch := by
  induction ch with
  | nil => rfl
  | cons c rest ih =>
    rw [List.countP_cons]
    cases hc : c.1 <;> simp [isChangeRec, hc, ih] <;> omega

theorem changeTotal_eq_countP (ch : List DChange) :
    changeTotal ch = ch.countP isChangeRec := by
  unfold changeTotal
  rw [totAdditions_eq, totDeletions_eq, countP_change_eq]

theorem summaryOf_spec (ch : List DChange) :
    summaryOf ch = if 5 < changeTotal ch then some (changeTotal ch - 5) else none := by
  unfold summaryOf shownCount
  by_cases h : 5 < changeTotal ch
  · rw [if_pos h, if_pos h, ← changeTotal_eq_countP]
    have hm : min 5 (changeTotal ch) = 5 := by omega
    rw [hm]
  · rw [if_neg h, if_neg h]

theorem utf8Len_takeBytesExact (l : List Char) : ∀ (n : Nat) (p : List Char),
    takeBytesExact n l = some p → utf8Len p = n := by
  induction l with
  | nil =>
    intro n p h
    match n with
    | 0 =>
      simp [takeBytesExact] at h
      subst h
      rfl
    | n + 1 => simp [takeBytesExact] at h
  | cons c rest ih =>
    intro n p h
    match n with
    | 0 =>
      simp [takeBytesExact] at h
      subst h
      rfl
    | n + 1 =>
      simp only [takeBytesExact] at h
      by_cases hcs : csize c ≤ n + 1
      · rw [if_pos hcs] at h
        cases hr : takeBytesExact (n + 1 - csize c) rest with
        | none => rw [hr] at h; simp at h
        | some q =>
          rw [hr] at h
          simp at h
          subst h
          rw [utf8Len_cons, ih (n + 1 - csize c) q hr]
          omega
      · rw [if_neg hcs] at h
        simp at h

theorem truncate60_getD (v : List Char) :
    utf8Len ((truncate60 v).getD v) ≤ 60 ∨ (truncate60 v).getD v = v := by
  unfold truncate60
  by_cases h : 60 < utf8Len v
  · rw [if_pos h]
    cases hr : takeBytesExact 57 v with
    | none => right; rfl
    | some p =>
      left
      have h1 := utf8Len_takeBytesExact v 57 p hr
      have h2 : utf8Len (strL "...") = 3 := by decide
      simp [utf8Len_append, h1, h2]
  · rw [if_neg h]
    right
    rfl

/-- C8: counterexample — a proposed text whose single inserted line is 31
copies of the two-byte character `é` (62 bytes > 60) makes the preview
truncation slice `&line[..57]` with byte 57 inside a multibyte character:
`display_diff` panics and the preview is never produced, although one
changed record exists and the claim promises a truncated `+` line for it. -/
theorem c8_preview_cex :
    previewOf (diffLines (linesKeep (strL ""))
        (linesKeep (strL "ééééééééééééééééééééééééééééééé\n"))) = none ∧
    totAdditions (diffLines (linesKeep (strL ""))
        (linesKeep (strL "ééééééééééééééééééééééééééééééé\n"))) = 1 := by decide

/-- C8: amended — the diff preview walks change records in order and
renders the first (at most) 5 non-Equal records, each as a colored
`+`/`-` marker plus the trimmed line truncated to 60 visible characters
with an ellipsis if longer than 60 bytes, Equal records never shown —
except that the byte slice `&line[..57]` panics when byte 57 of a shown
over-long line falls inside a multibyte character, aborting
`display_diff` so the preview does not complete (`none` in the model);
the summary decision reports `total - 5` hidden changes exactly when
more than 5 records changed. -/
theorem c8_preview_amended (orig prop : List Char) :
    previewOf (diffLines (linesKeep orig) (linesKeep prop)) =
      renderAll (((diffLines (linesKeep orig) (linesKeep prop)).filter isChangeRec).take 5) ∧
    (((diffLines (linesKeep orig) (linesKeep prop)).filter isChangeRec).take 5).length ≤ 5 ∧
    summaryOf (diffLines (linesKeep orig) (linesKeep prop)) =
      (if 5 < changeTotal (diffLines (linesKeep orig) (linesKeep prop))
       then some (changeTotal (diffLines (linesKeep orig) (linesKeep prop)) - 5)
       else none) ∧
    (∀ v : List Char, utf8Len ((truncate60 v).getD v) ≤ 60 ∨ (truncate60 v).getD v = v) := by
  refine ⟨previewAux_render_take _ 5, ?_, summaryOf_spec _, truncate60_getD⟩
  rw [List.length_take]
  omega

theorem stripAnsi_noEsc (l : List Char) (h : '\x1b' ∉ l) : stripAnsi l = l := by
  unfold stripAnsi
  induction l with
  | nil => rfl
  | cons c rest ih =>
    rw [List.mem_cons, not_or] at h
    have hc : ¬ (c = '\x1b') := fun e => h.1 e.symm
    simp only [stripAnsiAux, if_neg hc]
    exact congrArg (c :: ·) (ih h.2)

/-- C10: amended — during one transformer pass, the active list indent is
cleared by any line that is neither a Next-Steps heading, a numbered item,
nor a non-empty continuation line; in particular an empty line always
resets the indent and the Next-Steps flag to `(0, false)`. -/
theorem c10_reset_amended (li : Nat) (ns : Bool) :
    mdStruct li ns [] = ⟨0, false, 0, []⟩ := by
  have h1 : containsCI nextStepsPat [] = false := by decide
  have h2 : numberedSplit [] = none := by decide
  simp [mdStruct, h1, h2]

/-- C6: counterexample — for `x = "\x1b\x1b[0m[0m"`, stripping once yields
`"\x1b[0m"` (a newly spliced complete escape sequence), so stripping twice
yields `""`: `strip_ansi` is not idempotent and
`visible_length(x) = 4 ≠ 0 = visible_length(strip_ansi(x))`. -/
theorem c6_strip_cex :
    ¬ (visibleLength (strL "\x1b\x1b[0m[0m")
          = visibleLength (stripAnsi (strL "\x1b\x1b[0m[0m")) ∧
       stripAnsi (stripAnsi (strL "\x1b\x1b[0m[0m"))
          = stripAnsi (strL "\x1b\x1b[0m[0m")) := by decide

/-- C6: amended — stripping never fails and keeps unterminated escape
sequences as ordinary characters, but a removal can splice the
surrounding text into a new complete escape sequence, so idempotence and
`visible_length(x) = visible_length(strip_ansi(x))` do not hold for
every string; both hold whenever stripping leaves the string unchanged
or the stripped result contains no further `ESC` character. -/
theorem c6_strip_amended (x : List Char)
    (h : '\x1b' ∉ stripAnsi x ∨ stripAnsi x = x) :
    stripAnsi (stripAnsi x) = stripAnsi x ∧
    visibleLength x = visibleLength (stripAnsi x) := by
  rcases h with h | h
  · have hi := stripAnsi_noEsc (stripAnsi x) h
    exact ⟨hi, by unfold visibleLength; rw [hi]⟩
  · refine ⟨?_, ?_⟩
    · rw [h]
      exact h
    · rw [h]

theorem c6_strip_witness :
    ('\x1b' ∉ stripAnsi (strL "a\x1b[1mb") ∨
      stripAnsi (strL "a\x1b[1mb") = strL "a\x1b[1mb") ∧
    (stripAnsi (stripAnsi (strL "a\x1b[1mb")) = stripAnsi (strL "a\x1b[1mb") ∧
     visibleLength (strL "a\x1b[1mb") = visibleLength (stripAnsi (strL "a\x1b[1mb"))) :=
  ⟨Or.inl (by decide), c6_strip_amended (strL "a\x1b[1mb") (Or.inl (by decide))⟩

theorem hlOuts_length {σ ρ : Type} (H : HL σ ρ) (ls : List (List Char)) : ∀ s : σ,
    (hlOuts H s ls).length = ls.length := by
  induction ls with
  | nil => intro s; rfl
  | cons l ls ih =>
    intro s
    simp only [hlOuts, List.length_cons]
    rw [ih]

theorem hlOuts_get_of_no_ranges {σ ρ : Type} (H : HL σ ρ) (ls : List (List Char)) :
    ∀ (s0 : σ) (i : Nat) (s : σ) (l : List Char),
    (hlStates H s0 ls)[i]? = some s → ls[i]? = some l →
    (H.lineRanges s l).2 = [] → (hlOuts H s0 ls)[i]? = some l := by
  induction ls with
  | nil =>
    intro s0 i s l h1 h2 h3
    simp [hlStates] at h1
  | cons a ls ih =>
    intro s0 i s l h1 h2 h3
    match i with
    | 0 =>
      simp only [hlStates, List.getElem?_cons_zero, Option.some.injEq] at h1 h2
      subst h1
      subst h2
      simp only [hlOuts, List.getElem?_cons_zero, Option.some.injEq]
      rw [h3]
      simp
    | i + 1 =>
      simp only [hlStates, List.getElem?_cons_succ] at h1 h2
      simp only [hlOuts, List.getElem?_cons_succ]
      exact ih _ i s l h1 h2 h3

/-- C9: amended — a fenced block whose joined content trims to empty is
skipped entirely (zero rendered lines, see `c9_block_cex`); any other
block renders as the newline-join of exactly one output string per line
of the joined content, and a line for which the highlighter produces no
style ranges is emitted unmodified rather than with empty escape codes. -/
theorem c9_block_amended {σ ρ : Type} (H : HL σ ρ) (lang code : List Char)
    (h : (rustTrim code).isEmpty = false) :
    renderCodeBlockStr H lang code
      = List.intercalate ['\n'] (hlOuts H (H.langInit lang) (rustLines code)) ∧
    (hlOuts H (H.langInit lang) (rustLines code)).length = (rustLines code).length ∧
    (∀ (i : Nat) (s : σ) (l : List Char),
      (hlStates H (H.langInit lang) (rustLines code))[i]? = some s →
      (rustLines code)[i]? = some l →
      (H.lineRanges s l).2 = [] →
      (hlOuts H (H.langInit lang) (rustLines code))[i]? = some l) :=
  ⟨rfl, hlOuts_length H _ _,
    fun i s l h1 h2 h3 => hlOuts_get_of_no_ranges H _ _ i s l h1 h2 h3⟩

theorem c9_block_witness :
    (rustTrim (strL "x")).isEmpty = false ∧
    (renderCodeBlockStr trivialHL (strL "py") (strL "x")
        = List.intercalate ['\n']
            (hlOuts trivialHL (trivialHL.langInit (strL "py")) (rustLines (strL "x"))) ∧
     (hlOuts trivialHL (trivialHL.langInit (strL "py")) (rustLines (strL "x"))).length
        = (rustLines (strL "x")).length ∧
     (∀ (i : Nat) (s : Unit) (l : List Char),
       (hlStates trivialHL (trivialHL.langInit (strL "py")) (rustLines (strL "x")))[i]?
          = some s →
       (rustLines (strL "x"))[i]? = some l →
       (trivialHL.lineRanges s l).2 = [] →
       (hlOuts trivialHL (trivialHL.langInit (strL "py")) (rustLines (strL "x")))[i]?
          = some l)) :=
  ⟨by decide, c9_block_amended trivialHL (strL "py") (strL "x") (by decide)⟩

theorem wsSplitAux_word (w : List Char) (hw : ∀ c ∈ w, rustIsWS c = false) :
    ∀ (rest acc : List Char),
    wsSplitAux (w ++ rest) acc = wsSplitAux rest (w.reverse ++ acc) := by
  induction w with
  | nil => intro rest acc; simp
  | cons c cw ih =>
    intro rest acc
    have hc : rustIsWS c = false := hw c (by simp)
    have hw' : ∀ x ∈ cw, rustIsWS x = false := fun x hx => hw x (by simp [hx])
    rw [List.cons_append,
      show wsSplitAux (c :: (cw ++ rest)) acc = wsSplitAux (cw ++ rest) (c :: acc) from by
        simp [wsSplitAux, hc],
      ih hw' rest (c :: acc)]
    congr 1
    simp

theorem wsSplit_word (w : List Char) (hwne : w ≠ []) (hww : ∀ c ∈ w, rustIsWS c = false) :
    wsSplitAux w [] = [w] := by
  have h := wsSplitAux_word w hww [] []
  simp only [List.append_nil] at h
  rw [h]
  simp [wsSplitAux, hwne]

theorem wsSplitAux_skipWS (sep : List Char) (hs : ∀ c ∈ sep, rustIsWS c = true) :
    ∀ rest, wsSplitAux (sep ++ rest) [] = wsSplitAux rest [] := by
  induction sep with
  | nil => intro rest; rfl
  | cons c cs ih =>
    intro rest
    have hc : rustIsWS c = true := hs c (by simp)
    have hs' : ∀ x ∈ cs, rustIsWS x = true := fun x hx => hs x (by simp [hx])
    rw [List.cons_append,
      show wsSplitAux (c :: (cs ++ rest)) [] = wsSplitAux (cs ++ rest) [] from by
        simp [wsSplitAux, hc]]
    exact ih hs' rest

theorem wsSplitAux_append_word (sep w : List Char)
    (hsep : sep ≠ []) (hsw : ∀ c ∈ sep, rustIsWS c = true)
    (hwne : w ≠ []) (hww : ∀ c ∈ w, rustIsWS c = false) :
    ∀ (S acc : List Char),
    wsSplitAux (S ++ (sep ++ w)) acc = wsSplitAux S acc ++ [w] := by
  intro S
  induction S with
  | nil =>
    intro acc
    simp only [List.nil_append]
    match sep, hsep with
    | cs :: sep', _ =>
      have hc : rustIsWS cs = true := hsw cs (by simp)
      have hs' : ∀ x ∈ sep', rustIsWS x = true := fun x hx => hsw x (by simp [hx])
      rw [List.cons_append,
        show wsSplitAux (cs :: (sep' ++ w)) acc
            = if acc.isEmpty then wsSplitAux (sep' ++ w) []
              else acc.reverse :: wsSplitAux (sep' ++ w) [] from by
          simp [wsSplitAux, hc],
        wsSplitAux_skipWS sep' hs' w, wsSplit_word w hwne hww]
      by_cases ha : acc.isEmpty
      · simp [wsSplitAux, ha]
      · simp [wsSplitAux, ha]
  | cons c S ih =>
    intro acc
    rw [List.cons_append]
    by_cases hc2 : rustIsWS c = true
    · by_cases ha : acc.isEmpty
      · rw [show wsSplitAux (c :: (S ++ (sep ++ w))) acc = wsSplitAux (S ++ (sep ++ w)) [] from
            by simp [wsSplitAux, hc2, ha],
          show wsSplitAux (c :: S) acc = wsSplitAux S [] from by simp [wsSplitAux, hc2, ha]]
        exact ih []
      · rw [show wsSplitAux (c :: (S ++ (sep ++ w))) acc
              = acc.reverse :: wsSplitAux (S ++ (sep ++ w)) [] from
            by simp [wsSplitAux, hc2, ha],
          show wsSplitAux (c :: S) acc = acc.reverse :: wsSplitAux S [] from
            by simp [wsSplitAux, hc2, ha],
          ih []]
        rfl
    · have hc3 : rustIsWS c = false := by
        cases h : rustIsWS c
        · rfl
        · exact absurd h hc2
      rw [show wsSplitAux (c :: (S ++ (sep ++ w))) acc = wsSplitAux (S ++ (sep ++ w)) (c :: acc)
            from by simp [wsSplitAux, hc3],
        show wsSplitAux (c :: S) acc = wsSplitAux S (c :: acc) from by simp [wsSplitAux, hc3]]
      exact ih (c :: acc)

theorem wsSplitAux_clean (l : List Char) : ∀ acc : List Char,
    (∀ c ∈ acc, rustIsWS c = false) → ∀ w ∈ wsSplitAux l acc, cleanWord w := by
  induction l with
  | nil =>
    intro acc ha w hw
    by_cases he : acc.isEmpty
    · simp [wsSplitAux, he] at hw
    · simp only [wsSplitAux, he, Bool.false_eq_true, if_false, List.mem_singleton] at hw
      subst hw
      refine ⟨by simpa [List.isEmpty_iff] using he, ?_⟩
      intro c hc
      exact ha c (List.mem_reverse.mp hc)
  | cons c rest ih =>
    intro acc ha w hw
    by_cases hc : rustIsWS c = true
    · by_cases he : acc.isEmpty
      · rw [show wsSplitAux (c :: rest) acc = wsSplitAux rest [] from by
            simp [wsSplitAux, hc, he]] at hw
        exact ih [] (by simp) w hw
      · rw [show wsSplitAux (c :: rest) acc = acc.reverse :: wsSplitAux rest [] from by
            simp [wsSplitAux, hc, he]] at hw
        rcases List.mem_cons.mp hw with hw | hw
        · subst hw
          refine ⟨by simpa [List.isEmpty_iff] using he, ?_⟩
          intro x hx
          exact ha x (List.mem_reverse.mp hx)
        · exact ih [] (by simp) w hw
    · have hc3 : rustIsWS c = false := by
        cases h : rustIsWS c
        · rfl
        · exact absurd h hc
      rw [show wsSplitAux (c :: rest) acc = wsSplitAux rest (c :: acc) from by
          simp [wsSplitAux, hc3]] at hw
      refine ih (c :: acc) ?_ w hw
      intro x hx
      rcases List.mem_cons.mp hx with hx | hx
      · subst hx; exact hc3
      · exact ha x hx

theorem wsSplit_clean (l : List Char) : ∀ w ∈ wsSplit l, cleanWord w :=
  wsSplitAux_clean l [] (by simp)

theorem renderLines_extend_last (i : Nat) (L : List (List Char)) (c x : List Char) :
    renderLines i (L ++ [c ++ x]) = renderLines i (L ++ [c]) ++ x := by
  cases L with
  | nil => simp [renderLines]
  | cons l ls =>
    simp [renderLines, List.map_append, List.flatten_append, List.append_assoc]

theorem renderLines_snoc (i : Nat) (L : List (List Char)) (hL : L ≠ []) (w : List Char) :
    renderLines i (L ++ [w]) = renderLines i L ++ (('\n' :: padSpaces i) ++ w) := by
  cases L with
  | nil => exact absurd rfl hL
  | cons l ls =>
    simp [renderLines, lineSep, List.map_append, List.flatten_append, List.append_assoc]

theorem lineSep_allWS (i : Nat) : ∀ c ∈ ('\n' :: padSpaces i), rustIsWS c = true := by
  intro c hc
  rcases List.mem_cons.mp hc with h | h
  · subst h; decide
  · rw [List.eq_of_mem_replicate h]
    decide

theorem wrap_fold_recover (eff i : Nat) : ∀ ws : List (List Char),
    (∀ w ∈ ws, cleanWord w) → ws ≠ [] →
    (ws.foldl (wrapStep eff) ([], [])).2 ≠ [] ∧
    wsSplitAux (renderLines i (wrapCore eff ws)) [] = ws := by
  intro ws
  induction ws using List.reverseRecOn with
  | nil => intro _ h; exact absurd rfl h
  | append_singleton ws w ih =>
    intro hclean _
    have hw : cleanWord w := hclean w (by simp)
    have hclean' : ∀ x ∈ ws, cleanWord x := fun x hx => hclean x (by simp [hx])
    by_cases hws : ws = []
    · subst hws
      constructor
      · simpa [wrapStep] using hw.1
      · simp only [List.nil_append, wrapCore, List.foldl_cons, List.foldl_nil, wrapStep,
          List.isEmpty_nil, if_true]
        simp only [renderLines, List.map_nil, List.flatten_nil, List.append_nil,
          List.nil_append]
        exact wsSplit_word w hw.1 hw.2
    · obtain ⟨hcur, hrec⟩ := ih hclean' hws
      set p := ws.foldl (wrapStep eff) ([], []) with hp
      have hcore : wrapCore eff ws = p.1 ++ [p.2] := rfl
      have hfold2 : (ws ++ [w]).foldl (wrapStep eff) ([], []) = wrapStep eff p w := by
        rw [List.foldl_append, List.foldl_cons, List.foldl_nil]
      have hcore2 : wrapCore eff (ws ++ [w])
          = (wrapStep eff p w).1 ++ [(wrapStep eff p w).2] := by
        unfold wrapCore
        rw [List.foldl_append, List.foldl_cons, List.foldl_nil]
      rw [hfold2, hcore2]
      have hcurne : p.2.isEmpty = false := by simpa [List.isEmpty_iff] using hcur
      unfold wrapStep
      rw [if_neg (by simp [hcurne])]
      by_cases hfit : strippedBytes p.2 + 1 + strippedBytes w ≤ eff
      · rw [if_pos hfit]
        constructor
        · simp
        · have h1 : renderLines i (p.1 ++ [p.2 ++ (' ' :: w)])
              = renderLines i (p.1 ++ [p.2]) ++ (' ' :: w) :=
            renderLines_extend_last i p.1 p.2 (' ' :: w)
          show wsSplitAux (renderLines i (p.1 ++ [p.2 ++ ' ' :: w])) [] = ws ++ [w]
          rw [h1, show (' ' :: w) = [' '] ++ w from rfl,
            wsSplitAux_append_word [' '] w (by simp)
              (by intro c hc; simp at hc; subst hc; decide) hw.1 hw.2
              (renderLines i (p.1 ++ [p.2])) [],
            show wsSplitAux (renderLines i (p.1 ++ [p.2])) [] = ws from hcore ▸ hrec]
      · rw [if_neg hfit]
        constructor
        · exact hw.1
        · show wsSplitAux (renderLines i ((p.1 ++ [p.2]) ++ [w])) [] = ws ++ [w]
          rw [renderLines_snoc i (p.1 ++ [p.2]) (by simp) w,
            wsSplitAux_append_word ('\n' :: padSpaces i) w (by simp) (lineSep_allWS i)
              hw.1 hw.2 (renderLines i (p.1 ++ [p.2])) [],
            show wsSplitAux (renderLines i (p.1 ++ [p.2])) [] = ws from hcore ▸ hrec]

/-- C5: wrapping is idempotent — re-wrapping the output of `wrap_text`
with the same `(max_width, indent)` is byte-identical, because the output
is the word sequence of the input interleaved with whitespace-only
separators, so `split_whitespace` recovers exactly the same words. -/
theorem c5_wrap_idempotent (text : List Char) (w i : Nat) (h : i < w) :
    wrapText (wrapText text w i) w i = wrapText text w i := by
  by_cases hws : wsSplit text = []
  · have h1 : wrapText text w i = [] := by
      unfold wrapText
      rw [hws]
      rfl
    rw [h1]
    rfl
  · have hrec := wrap_fold_recover (usizeSub w i) i (wsSplit text) (wsSplit_clean text) hws
    unfold wrapText
    rw [show wsSplit (renderLines i (wrapCore (usizeSub w i) (wsSplit text))) = wsSplit text
        from hrec.2]

theorem c5_wrap_idempotent_witness :
    (1 : Nat) < 5 ∧ wrapText (wrapText (strL "a b") 5 1) 5 1 = wrapText (strL "a b") 5 1 :=
  ⟨by decide, c5_wrap_idempotent (strL "a b") 5 1 (by decide)⟩

theorem stripAnsiAux_splice (sep : Char) (hsep : ansiNeutralChar sep) (b : List Char) :
    ∀ (a : List Char) (st : AnsiSt),
    stripAnsiAux st (a ++ sep :: b) = stripAnsiAux st a ++ sep :: stripAnsiAux .norm b := by
  intro a
  induction a with
  | nil =>
    intro st
    cases st with
    | norm => simp only [List.nil_append, stripAnsiAux, if_neg hsep.1]
    | esc =>
      simp [stripAnsiAux, if_neg hsep.2.1, if_neg hsep.1]
    | seq ds =>
      simp [stripAnsiAux, hsep.2.2.1, hsep.2.2.2, if_neg hsep.1]
  | cons c a ih =>
    intro st
    rw [List.cons_append]
    cases st with
    | norm =>
      by_cases hc : c = '\x1b'
      · subst hc
        simp only [stripAnsiAux, if_pos rfl]
        exact ih .esc
      · simp only [stripAnsiAux, if_neg hc]
        rw [ih .norm, List.cons_append]
    | esc =>
      by_cases hc1 : c = '['
      · subst hc1
        simp only [stripAnsiAux, if_pos rfl]
        exact ih (.seq [])
      · by_cases hc2 : c = '\x1b'
        · subst hc2
          simp only [stripAnsiAux, if_neg hc1, if_pos rfl]
          rw [ih .esc]
          simp
        · simp only [stripAnsiAux, if_neg hc1, if_neg hc2]
          rw [ih .norm]
          simp
    | seq ds =>
      by_cases hc1 : isDigitSemi c = true
      · simp only [stripAnsiAux, hc1, if_true]
        exact ih (.seq (c :: ds))
      · by_cases hc2 : isAsciiAlpha c = true
        · simp only [stripAnsiAux, hc1, hc2, if_true, Bool.false_eq_true, if_false]
          exact ih .norm
        · by_cases hc3 : c = '\x1b'
          · subst hc3
            simp only [stripAnsiAux, hc1, hc2, if_pos rfl, Bool.false_eq_true, if_false]
            rw [ih .esc]
            simp [List.append_assoc]
          · simp only [stripAnsiAux, hc1, hc2, if_neg hc3, Bool.false_eq_true, if_false]
            rw [ih .norm]
            simp [List.append_assoc]

theorem stripAnsi_splice_space (a b : List Char) :
    stripAnsi (a ++ ' ' :: b) = stripAnsi a ++ ' ' :: stripAnsi b :=
  stripAnsiAux_splice ' ' (by refine ⟨?_, ?_, ?_, ?_⟩ <;> decide) b a .norm

theorem strippedBytes_space (a b : List Char) :
    strippedBytes (a ++ ' ' :: b) = strippedBytes a + 1 + strippedBytes b := by
  unfold strippedBytes
  rw [stripAnsi_splice_space, utf8Len_append, utf8Len_cons]
  have : csize ' ' = 1 := by decide
  omega

theorem stripAnsi_noEsc_append (x r : List Char) :
    (∀ c ∈ x, c ≠ '\x1b') → stripAnsi (x ++ r) = x ++ stripAnsi r := by
  unfold stripAnsi
  induction x with
  | nil => intro _; rfl
  | cons c xs ih =>
    intro hx
    have hc : ¬ (c = '\x1b') := hx c (by simp)
    rw [List.cons_append]
    simp only [stripAnsiAux, if_neg hc]
    rw [ih (fun a ha => hx a (by simp [ha])), List.cons_append]

theorem csize_pos (c : Char) : 1 ≤ csize c := by
  unfold csize
  by_cases h1 : c.toNat < 0x80
  · simp [h1]
  · by_cases h2 : c.toNat < 0x800 <;> by_cases h3 : c.toNat < 0x10000 <;> simp [h1, h2, h3]

theorem length_le_utf8Len (l : List Char) : l.length ≤ utf8Len l := by
  induction l with
  | nil => simp
  | cons c rest ih =>
    rw [List.length_cons, utf8Len_cons]
    have := csize_pos c
    omega

theorem wsSplit_pad (i : Nat) (x : List Char) :
    wsSplit (padSpaces i ++ x) = wsSplit x :=
  wsSplitAux_skipWS (padSpaces i)
    (fun c hc => by rw [List.eq_of_mem_replicate hc]; decide) x

theorem stripAnsi_pad (i : Nat) (x : List Char) :
    stripAnsi (padSpaces i ++ x) = padSpaces i ++ stripAnsi x :=
  stripAnsi_noEsc_append _ _ (fun c hc => by rw [List.eq_of_mem_replicate hc]; decide)

theorem wrap_fold_inv (eff : Nat) : ∀ ws : List (List Char), (∀ w ∈ ws, cleanWord w) →
    ∀ st, wrapInv eff st → wrapInv eff (ws.foldl (wrapStep eff) st) := by
  intro ws
  induction ws with
  | nil => intro _ st h; exact h
  | cons w ws ih =>
    intro hws st hst
    have hw : cleanWord w := hws w (by simp)
    rw [List.foldl_cons]
    apply ih (fun x hx => hws x (by simp [hx]))
    unfold wrapStep
    by_cases hemp : st.2.isEmpty
    · rw [if_pos hemp]
      intro l hl
      have h2 : st.2 = [] := List.isEmpty_iff.mp hemp
      rcases List.mem_append.mp hl with hl | hl
      · exact hst l (List.mem_append_left _ hl)
      · rw [List.mem_singleton] at hl
        subst hl
        rw [h2, List.nil_append]
        refine ⟨Or.inr ?_, ?_⟩
        · rw [show wsSplit w = wsSplitAux w [] from rfl, wsSplit_word w hw.1 hw.2]
          simp
        · intro c hc
          exact Or.inr (hw.2 c hc)
    · rw [if_neg hemp]
      by_cases hfit : strippedBytes st.2 + 1 + strippedBytes w ≤ eff
      · rw [if_pos hfit]
        intro l hl
        rcases List.mem_append.mp hl with hl | hl
        · exact hst l (List.mem_append_left _ hl)
        · rw [List.mem_singleton] at hl
          subst hl
          refine ⟨Or.inl ?_, ?_⟩
          · rw [strippedBytes_space]
            exact hfit
          · intro c hc
            rcases List.mem_append.mp hc with hc | hc
            · exact (hst st.2 (List.mem_append_right _ (by simp))).2 c hc
            · rcases List.mem_cons.mp hc with hc | hc
              · exact Or.inl hc
              · exact Or.inr (hw.2 c hc)
      · rw [if_neg hfit]
        intro l hl
        rcases List.mem_append.mp hl with hl | hl
        · exact hst l (by
            rcases List.mem_append.mp hl with h | h
            · exact List.mem_append_left _ h
            · exact List.mem_append_right _ h)
        · rw [List.mem_singleton] at hl
          rw [hl]
          refine ⟨Or.inr ?_, ?_⟩
          · rw [show wsSplit w = wsSplitAux w [] from rfl, wsSplit_word w hw.1 hw.2]
            simp
          · intro c hc
            exact Or.inr (hw.2 c hc)

theorem rustLinesAux_consume (x : List Char) :
    (∀ c ∈ x, c ≠ '\n') →
    ∀ (rest acc : List Char), rustLinesAux (x ++ rest) acc = rustLinesAux rest (x.reverse ++ acc) := by
  induction x with
  | nil => intro _ rest acc; simp
  | cons c xs ih =>
    intro hx rest acc
    have hc : ¬ (c = '\n') := hx c (by simp)
    rw [List.cons_append]
    rw [show rustLinesAux (c :: (xs ++ rest)) acc = rustLinesAux (xs ++ rest) (c :: acc) from by
      simp [rustLinesAux, hc]]
    rw [ih (fun a ha => hx a (by simp [ha])) rest (c :: acc)]
    congr 1
    simp

theorem dropCRrev_noCR (l : List Char) (h : ∀ c ∈ l, c ≠ '\r') :
    dropCRrev l.reverse = l.reverse := by
  cases hl : l.reverse with
  | nil => rfl
  | cons a t =>
    have ha : a ∈ l := by
      rw [← List.mem_reverse, hl]
      simp
    simp [dropCRrev, h a ha]

theorem rustLines_cons_sep (l X : List Char) (hn : ∀ c ∈ l, c ≠ '\n')
    (hr : ∀ c ∈ l, c ≠ '\r') :
    rustLines (l ++ '\n' :: X) = l :: rustLines X := by
  unfold rustLines
  rw [rustLinesAux_consume l hn ('\n' :: X) []]
  rw [show rustLinesAux ('\n' :: X) (l.reverse ++ []) =
      (dropCRrev (l.reverse ++ [])).reverse :: rustLinesAux X [] from by
    simp [rustLinesAux]]
  rw [List.append_nil, dropCRrev_noCR l hr, List.reverse_reverse]

theorem rustLines_noNL (l : List Char) (hn : ∀ c ∈ l, c ≠ '\n') :
    rustLines l = if l.isEmpty then [] else [l] := by
  unfold rustLines
  have h := rustLinesAux_consume l hn [] []
  rw [List.append_nil] at h
  rw [h]
  by_cases he : l.isEmpty
  · have : l = [] := List.isEmpty_iff.mp he
    subst this
    simp [rustLinesAux]
  · have : l ≠ [] := fun e => he (by simp [e])
    simp [rustLinesAux, he, List.isEmpty_iff, this]

theorem rustLines_render_mem (i : Nat) :
    ∀ (ls : List (List Char)) (l : List Char),
    (∀ x ∈ l :: ls, (∀ c ∈ x, c ≠ '\n') ∧ (∀ c ∈ x, c ≠ '\r')) →
    ∀ line ∈ rustLines (renderLines i (l :: ls)),
      line = l ∨ ∃ x ∈ ls, line = padSpaces i ++ x := by
  intro ls
  induction ls with
  | nil =>
    intro l h line hline
    simp only [renderLines, List.map_nil, List.flatten_nil, List.append_nil] at hline
    rw [rustLines_noNL l (h l (by simp)).1] at hline
    by_cases he : l.isEmpty
    · simp [he] at hline
    · simp [he] at hline
      exact Or.inl hline
  | cons m ls ih =>
    intro l h line hline
    have hrdr : renderLines i (l :: m :: ls)
        = l ++ '\n' :: renderLines i ((padSpaces i ++ m) :: ls) := by
      simp [renderLines, lineSep, List.append_assoc]
    rw [hrdr, rustLines_cons_sep l _ (h l (by simp)).1 (h l (by simp)).2] at hline
    rcases List.mem_cons.mp hline with hline | hline
    · exact Or.inl hline
    · have h' : ∀ x ∈ (padSpaces i ++ m) :: ls, (∀ c ∈ x, c ≠ '\n') ∧ (∀ c ∈ x, c ≠ '\r') := by
        intro x hx
        rcases List.mem_cons.mp hx with hx | hx
        · subst hx
          constructor
          · intro c hc
            rcases List.mem_append.mp hc with hc | hc
            · rw [List.eq_of_mem_replicate hc]; decide
            · exact (h m (by simp)).1 c hc
          · intro c hc
            rcases List.mem_append.mp hc with hc | hc
            · rw [List.eq_of_mem_replicate hc]; decide
            · exact (h m (by simp)).2 c hc
        · exact h x (by simp [hx])
      rcases ih (padSpaces i ++ m) h' line hline with h1 | h1
      · exact Or.inr ⟨m, by simp, h1⟩
      · rcases h1 with ⟨x, hx, he⟩
        exact Or.inr ⟨x, by simp [hx], he⟩

/-- C4: counterexample — `wrap("aa bb cc dd", 5, 0)` produces the lines
`"aa bb"` and `" cc dd"`: the continuation line is prefixed with one
space even at indent 0 (because `format!("{:indent$}", " ")` pads the
one-space string to a *minimum* width), so its visible length is 6 > 5
although it is not a single unbreakable word. -/
theorem c4_width_cex :
    ¬ (∀ line ∈ rustLines (wrapText (strL "aa bb cc dd") 5 0),
        visibleLength line ≤ 5 ∨ (wsSplit line).length ≤ 1) := by decide

/-- C4: amended — for `indent < max_width < 2^64`, every output line of
`wrap_text`, after stripping ANSI sequences, either has visible length at
most `max_width` when `indent ≥ 1` — respectively `max_width + 1` when
`indent = 0`, the continuation lines then carrying one extra space of
forced padding — or consists of (the indent padding plus) a single
unbreakable word, which is emitted unshortened on its own line. -/
theorem c4_width_amended (text : List Char) (w i : Nat) (h1 : i < w) (h2 : w < 2 ^ 64) :
    ∀ line ∈ rustLines (wrapText text w i),
      visibleLength line ≤ w + (if i = 0 then 1 else 0) ∨ (wsSplit line).length ≤ 1 := by
  intro line hline
  have heff : usizeSub w i = w - i := by unfold usizeSub; omega
  unfold wrapText at hline
  rw [heff] at hline
  have hinv : wrapInv (w - i) ((wsSplit text).foldl (wrapStep (w - i)) ([], [])) := by
    refine wrap_fold_inv (w - i) (wsSplit text) (wsSplit_clean text) ([], []) ?_
    intro l hl
    simp only [List.nil_append, List.mem_singleton] at hl
    subst hl
    refine ⟨Or.inr (by decide), by simp⟩
  have hinv' : ∀ l ∈ wrapCore (w - i) (wsSplit text),
      (strippedBytes l ≤ w - i ∨ (wsSplit l).length ≤ 1) ∧
      (∀ c ∈ l, c = ' ' ∨ rustIsWS c = false) := hinv
  have hne : wrapCore (w - i) (wsSplit text) ≠ [] := by unfold wrapCore; simp
  obtain ⟨l0, ls, hL⟩ : ∃ a L, wrapCore (w - i) (wsSplit text) = a :: L := by
    cases h : wrapCore (w - i) (wsSplit text) with
    | nil => exact absurd h hne
    | cons a L => exact ⟨a, L, rfl⟩
  rw [hL] at hline hinv'
  have hchars : ∀ x ∈ l0 :: ls, (∀ c ∈ x, c ≠ '\n') ∧ (∀ c ∈ x, c ≠ '\r') := by
    intro x hx
    have hcs := (hinv' x hx).2
    constructor
    · intro c hc e
      rcases hcs c hc with h | h
      · rw [e] at h; exact absurd h (by decide)
      · rw [e] at h; exact absurd h (by decide)
    · intro c hc e
      rcases hcs c hc with h | h
      · rw [e] at h; exact absurd h (by decide)
      · rw [e] at h; exact absurd h (by decide)
  rcases rustLines_render_mem i ls l0 hchars line hline with hcase | ⟨x, hx, hcase⟩
  · rw [hcase]
    rcases (hinv' l0 (by simp)).1 with hb | hb
    · left
      have hv : visibleLength l0 ≤ strippedBytes l0 := length_le_utf8Len (stripAnsi l0)
      by_cases hi : i = 0 <;> simp [hi] <;> omega
    · right; exact hb
  · rw [hcase]
    rcases (hinv' x (by simp [hx])).1 with hb | hb
    · left
      have hv : visibleLength (padSpaces i ++ x) = max i 1 + visibleLength x := by
        unfold visibleLength
        rw [stripAnsi_pad]
        simp [padSpaces]
      have hx2 : visibleLength x ≤ strippedBytes x := length_le_utf8Len (stripAnsi x)
      rw [hv]
      by_cases hi : i = 0 <;> simp [hi] <;> omega
    · right
      rw [show wsSplit (padSpaces i ++ x) = wsSplit x from wsSplit_pad i x]
      exact hb

theorem c4_width_witness :
    (1 : Nat) < 5 ∧ (5 : Nat) < 2 ^ 64 ∧
    (visibleLength (strL "aa") ≤ 5 + (if (1 : Nat) = 0 then 1 else 0) ∨
      (wsSplit (strL "aa")).length ≤ 1) :=
  ⟨by decide, by decide,
    c4_width_amended (strL "aa bb cc dd") 5 1 (by decide) (by decide) (strL "aa") (by decide)⟩
